import Mathlib

/-!
Verification of the SSZ Merkleization engine (`tree_hash` crate): the
incremental streaming hasher `VecTreeHasher`, the bottom-up chunk reduction
`merkleize_chunks`, the cached zero-hash table, and the height/packing and
primitive-encoding arithmetic.

Byte strings are modelled as `List Nat`.  The SHA-256 digest function lives in
an external library (`ring::digest`), outside this repository, so it is
modelled as an arbitrary function `H : List Nat → List Nat`; structural
properties are proved for every `H` (with an explicit hypothesis
`∀ b, (H b).length = 32` where the code asserts digest sizes).  Fatal failures
(panics, violated assertions) are modelled with `Option`: `none` means the
computation halts.
-/

def BYTES_PER_CHUNK : Nat := 32

def HASHSIZE : Nat := 32

def MAX_TREE_DEPTH : Nat := 48

abbrev Bytes := List Nat

abbrev HashF := Bytes → Bytes

/-- Model of `hash_concat`: the hash of two byte strings concatenated. -/
def hash_concat (H : HashF) (h1 h2 : Bytes) : Bytes := H (h1 ++ h2)

/-- Reference recursive definition of the zero-hash chain: entry 0 is the
all-zero chunk and entry `i+1` is `hash(entry_i ++ entry_i)`. -/
def zeroHashes (H : HashF) : Nat → Bytes
  | 0 => List.replicate 32 0
  | i + 1 => hash_concat H (zeroHashes H i) (zeroHashes H i)

/-- The `ZERO_HASHES` table, built exactly as the `lazy_static` initializer:
start from `MAX_TREE_DEPTH + 1` all-zero chunks and, for `i` in
`0..MAX_TREE_DEPTH`, overwrite entry `i+1` with `hash(entry_i ++ entry_i)`. -/
def ZERO_HASHES (H : HashF) : List Bytes :=
  (List.range MAX_TREE_DEPTH).foldl
    (fun hashes i => hashes.set (i + 1) (hash_concat H (hashes.getD i []) (hashes.getD i [])))
    (List.replicate (MAX_TREE_DEPTH + 1) (List.replicate 32 0))

/-- `get_zero_hash`: index the cached table, panicking (`none`) when the
height exceeds `MAX_TREE_DEPTH`. -/
def get_zero_hash (H : HashF) (height : Nat) : Option Bytes :=
  if height ≤ MAX_TREE_DEPTH then (ZERO_HASHES H).get? height else none

/-- Direct translation of `next_even_number`. -/
def next_even_number (n : Nat) : Nat := n + n % 2

/-- One parent of a reduction round: children at indices `2i` and `2i+1`; a
missing right child is replaced by the cached zero hash of the current level;
a missing left child is the `unreachable!` branch (`none`); both children must
be `BYTES_PER_CHUNK` bytes (the `assert!` in the loop). -/
def parent_node (H : HashF) (level : Nat) (chunks : List Bytes) (i : Nat) : Option Bytes :=
  match chunks.get? (2 * i), chunks.get? (2 * i + 1) with
  | some left, some right =>
      if left.length = BYTES_PER_CHUNK ∧ right.length = BYTES_PER_CHUNK then
        some (hash_concat H left right)
      else none
  | some left, none =>
      (get_zero_hash H level).bind fun right =>
        if left.length = BYTES_PER_CHUNK ∧ right.length = BYTES_PER_CHUNK then
          some (hash_concat H left right)
        else none
  | none, _ => none

/-- Collect the values of a fallible function over a list of indices, failing
as soon as the function fails. -/
def collectSome (f : Nat → Option Bytes) : List Nat → Option (List Bytes)
  | [] => some []
  | i :: rest => (f i).bind fun v => (collectSome f rest).map (fun vs => v :: vs)

/-- One level of `merkleize_chunks`: compute `parent_nodes` parents
(`next_even_number(len)/2` of them) and truncate to them.  The source writes
parent `i` in place and then truncates; since every later read is at index
`2j ≥ 2i + 2 > i`, the in-place writes never clobber an unread child, so the
round equals this indexed traversal of the original chunk list. -/
def merkle_round (H : HashF) (level : Nat) (chunks : List Bytes) : Option (List Bytes) :=
  collectSome (parent_node H level chunks) (List.range (next_even_number chunks.length / 2))

/-- The `for height in 1..height-1` loop of `merkleize_chunks`, as a recursion
over the list of levels. -/
def merkleize_rounds (H : HashF) : List Nat → List Bytes → Option (List Bytes)
  | [], chunks => some chunks
  | level :: rest, chunks => (merkle_round H level chunks).bind (merkleize_rounds H rest)

/-- `merkleize_chunks`: empty store returns the all-zero chunk; otherwise run
the reduction rounds for levels `1, ..., height-2` (only when `height > 2`),
flatten the store, and assert that exactly one chunk (32 bytes) remains. -/
def merkleize_chunks (H : HashF) (chunks : List Bytes) (height : Nat) : Option Bytes :=
  if chunks.length = 0 then some (List.replicate 32 0)
  else
    (if 2 < height then merkleize_rounds H (List.range' 1 (height - 2)) chunks
     else some chunks).bind fun remaining =>
      let root := remaining.flatten
      if root.length = BYTES_PER_CHUNK then some root else none

/-- Model of Rust `Vec::resize(n, 0)`: truncate or pad with zeros to length `n`. -/
def resizeList (l : Bytes) (n : Nat) : Bytes := l.take n ++ List.replicate (n - l.length) 0

/-- Model of `slice::chunks(32)` with explicit fuel (any fuel at least the
length of the list yields the chunking; the wrapper below passes the length). -/
def chunksAux : Nat → Bytes → List Bytes
  | 0, _ => []
  | _ + 1, [] => []
  | fuel + 1, l => l.take 32 :: chunksAux fuel (l.drop 32)

/-- The sub-slices of length 32 (last one possibly shorter) of a byte list. -/
def chunks32 (l : Bytes) : List Bytes := chunksAux l.length l

/-- Model of `usize::next_power_of_two` (fuel-based: doubling an accumulator
that starts at 1 until it reaches `n`; fuel `n` always suffices). -/
def next_power_of_two_aux : Nat → Nat → Nat → Nat
  | 0, _, p => p
  | fuel + 1, n, p => if n ≤ p then p else next_power_of_two_aux fuel n (2 * p)

def next_power_of_two (n : Nat) : Nat := next_power_of_two_aux n n 1

/-- Model of `trailing_zeros` on a positive integer (fuel-based). -/
def trailing_zeros_aux : Nat → Nat → Nat
  | 0, _ => 0
  | fuel + 1, n => if n % 2 = 0 ∧ n ≠ 0 then trailing_zeros_aux fuel (n / 2) + 1 else 0

def trailing_zeros (n : Nat) : Nat := trailing_zeros_aux n n

/-- `height_for_leaf_count`: `next_power_of_two(n).trailing_zeros() + 1`. -/
def height_for_leaf_count (leaf_count : Nat) : Nat :=
  trailing_zeros (next_power_of_two leaf_count) + 1

inductive TreeHashPacking where
  | NotPacked : TreeHashPacking
  | Packed : Nat → TreeHashPacking

/-- `TreeHashPacking::height_for_value_count`. -/
def TreeHashPacking.height_for_value_count : TreeHashPacking → Nat → Nat
  | NotPacked, value_count => height_for_leaf_count value_count
  | Packed packing_factor, value_count =>
      height_for_leaf_count ((value_count + packing_factor - 1) / packing_factor)

/-- Little-endian byte encoding of `v` on `w` bytes (model of `to_le_bytes`
for a `w`-byte unsigned integer). -/
def le_bytes : Nat → Nat → Bytes
  | 0, _ => []
  | w + 1, v => v % 256 :: le_bytes w (v / 256)

/-- Little-endian decoding of a byte list. -/
def le_decode : Bytes → Nat
  | [] => 0
  | b :: rest => b + 256 * le_decode rest

/-- `mix_in_length`: hash of the root concatenated with the 8 little-endian
length bytes resized to a 32-byte chunk. -/
def mix_in_length (H : HashF) (root : Bytes) (length : Nat) : Bytes :=
  hash_concat H root (resizeList (le_bytes 8 length) BYTES_PER_CHUNK)

/-- `tree_hash_root` of the `impl_for_bitsize` macro for an unsigned integer of
`byte_width` bytes: the little-endian bytes resized to a 32-byte chunk. -/
def tree_hash_root_uint (byte_width : Nat) (v : Nat) : Bytes :=
  resizeList (le_bytes byte_width v) BYTES_PER_CHUNK

/-- `tree_hash_packing` of the `impl_for_bitsize` macro:
`Packed { packing_factor: HASHSIZE / (bit_size / 8) }`. -/
def tree_hash_packing_uint (bit_size : Nat) : TreeHashPacking :=
  TreeHashPacking.Packed (HASHSIZE / (bit_size / 8))

structure VecTreeHasher where
  height : Nat
  chunks : List Bytes
  buf : Bytes
  first_chunk : Option Bytes
  should_pack : Bool

/-- `VecTreeHasher::new`.  The SHA-256 `Context` is modelled by `buf`, the
bytes fed to it since it was last finished; `context_size` is `buf.length`. -/
def VecTreeHasher.new (height : Nat) (should_pack : Bool) : VecTreeHasher :=
  { height := height, chunks := [], buf := [], first_chunk := some [], should_pack := should_pack }

def VecTreeHasher.packed (height : Nat) : VecTreeHasher := VecTreeHasher.new height true

def VecTreeHasher.not_packed (height : Nat) : VecTreeHasher := VecTreeHasher.new height false

/-- `finish_context`: push the digest of the open context onto the chunk store
and reset the context. -/
def finish_context (H : HashF) (st : VecTreeHasher) : VecTreeHasher :=
  { st with chunks := st.chunks ++ [H st.buf], buf := [] }

/-- `update_first_chunk`: append to the fast-path buffer while the total still
fits in one chunk, else deactivate it permanently. -/
def update_first_chunk (st : VecTreeHasher) (bytes : Bytes) : VecTreeHasher :=
  match st.first_chunk with
  | some fc =>
      if fc.length + bytes.length ≤ BYTES_PER_CHUNK then
        { st with first_chunk := some (fc ++ bytes) }
      else { st with first_chunk := none }
  | none => st

/-- `update_maybe_padded`: feed the bytes to the context, and when packing is
disabled pad them to a full chunk with zero bytes. -/
def update_maybe_padded (st : VecTreeHasher) (bytes : Bytes) : VecTreeHasher :=
  let st' := { st with buf := st.buf ++ bytes }
  let padding := BYTES_PER_CHUNK - bytes.length
  if st'.should_pack = false ∧ 0 < padding then
    { st' with buf := st'.buf ++ List.replicate padding 0 }
  else st'

/-- The body of the `bytes.chunks(BYTES_PER_CHUNK).for_each` closure in
`update`: fill the open two-chunk context, splitting the slice and finishing
the context when it overflows, and finish it when it reaches exactly 64 bytes. -/
def apply_slice (H : HashF) (st : VecTreeHasher) (bytes : Bytes) : VecTreeHasher :=
  let remaining := BYTES_PER_CHUNK * 2 - st.buf.length
  let st' :=
    if bytes.length ≤ remaining then update_maybe_padded st bytes
    else
      update_maybe_padded
        (finish_context H (update_maybe_padded st (bytes.take remaining)))
        (bytes.drop remaining)
  if st'.buf.length = BYTES_PER_CHUNK * 2 then finish_context H st' else st'

/-- `VecTreeHasher::update`. -/
def VecTreeHasher.update (H : HashF) (st : VecTreeHasher) (bytes : Bytes) : VecTreeHasher :=
  (chunks32 bytes).foldl (apply_slice H) (update_first_chunk st bytes)

/-- `VecTreeHasher::finish`. -/
def VecTreeHasher.finish (H : HashF) (st : VecTreeHasher) : Option Bytes :=
  if st.height = 1 ∧ st.first_chunk.isSome then
    some (resizeList (st.first_chunk.getD []) BYTES_PER_CHUNK)
  else
    let st' :=
      if 0 < st.buf.length ∨ (st.buf.length = 0 ∧ st.chunks.length = 0) then
        VecTreeHasher.update H st (List.replicate (BYTES_PER_CHUNK * 2 - st.buf.length) 0)
      else st
    merkleize_chunks H st'.chunks st'.height

/-- Reference from the specification text: one round of naive pairwise
hashing of adjacent siblings, with no zero-hash substitution. -/
def naivePairs (H : HashF) : List Bytes → List Bytes
  | [] => []
  | [c] => [c]
  | a :: b :: rest => hash_concat H a b :: naivePairs H rest

/-- Reference from the specification text: `k` rounds of naive pairwise
hashing. -/
def naiveIter (H : HashF) : Nat → List Bytes → List Bytes
  | 0, cs => cs
  | k + 1, cs => naiveIter H k (naivePairs H cs)

/-- Structured form of one code reduction round at a given level: pair up the
chunks, hashing a trailing unpaired chunk with the level's zero hash. -/
def pairsZ (H : HashF) (level : Nat) : List Bytes → List Bytes
  | [] => []
  | [a] => [hash_concat H a (zeroHashes H level)]
  | a :: b :: rest => hash_concat H a b :: pairsZ H level rest

/-- A concrete 32-byte-digest hash used to instantiate universally quantified
theorems at checkable inputs. -/
def constHash : HashF := fun _ => List.replicate 32 0

/-- A concrete hash that exposes byte 16 of the preimage in the last byte of a
32-byte digest, distinguishing differently padded streams. -/
def probeHash : HashF := fun bs => List.replicate 31 0 ++ [bs.getD 16 0]

/-! ### Zero-hash table lemmas -/

theorem getD_of_get? {α : Type} (l : List α) (n : Nat) (d v : α) (h : l.get? n = some v) :
    l.getD n d = v := by
  rw [List.getD_eq_getElem?_getD, ← List.get?_eq_getElem?, h]
  rfl

theorem zeroHashes_length (H : HashF) (Hlen : ∀ b, (H b).length = 32) (i : Nat) :
    (zeroHashes H i).length = 32 := by
  cases i with
  | zero => simp [zeroHashes]
  | succ j => simp [zeroHashes, hash_concat, Hlen]

/-- Invariant of the table-building fold: after processing `0..k`, entries up
to `k` hold the recursive zero hashes and the rest still hold zero chunks. -/
theorem ZERO_HASHES_fold_invariant (H : HashF) (k : Nat) (hk : k ≤ 48) :
    let tbl := (List.range k).foldl
      (fun hashes i => hashes.set (i + 1) (hash_concat H (hashes.getD i []) (hashes.getD i [])))
      (List.replicate (MAX_TREE_DEPTH + 1) (List.replicate 32 0))
    tbl.length = 49 ∧ (∀ i, i ≤ k → tbl.get? i = some (zeroHashes H i)) ∧
      (∀ i, k < i → i ≤ 48 → tbl.get? i = some (List.replicate 32 0)) := by
  induction k with
  | zero =>
    refine ⟨by simp [MAX_TREE_DEPTH], ?_, ?_⟩
    · intro i hi
      interval_cases i
      simp [MAX_TREE_DEPTH, zeroHashes, List.get?_eq_getElem?]
    · intro i _ hi
      simp only [List.range_zero, List.foldl_nil, List.get?_eq_getElem?, List.getElem?_replicate,
        MAX_TREE_DEPTH]
      rw [if_pos (by omega)]
  | succ k ih =>
    have ih' := ih (by omega)
    obtain ⟨hlen, hlow, hhigh⟩ := ih'
    rw [List.range_succ, List.foldl_append, List.foldl_cons, List.foldl_nil]
    set tbl := (List.range k).foldl
      (fun hashes i => hashes.set (i + 1) (hash_concat H (hashes.getD i []) (hashes.getD i [])))
      (List.replicate (MAX_TREE_DEPTH + 1) (List.replicate 32 0)) with htbl
    have hget : tbl.getD k [] = zeroHashes H k := getD_of_get? _ _ _ _ (hlow k (by omega))
    refine ⟨by simp [hlen], ?_, ?_⟩
    · intro i hi
      rcases Nat.lt_or_ge i (k + 1) with hilt | hieq
      · rw [List.get?_set_ne _ _ (by omega)]
        exact hlow i (by omega)
      · have : i = k + 1 := by omega
        subst this
        rw [List.get?_set_eq_of_lt _ (by omega)]
        rw [hget]
        rfl
    · intro i hi hi48
      rw [List.get?_set_ne _ _ (by omega)]
      exact hhigh i (by omega) hi48

theorem ZERO_HASHES_get? (H : HashF) (i : Nat) (hi : i ≤ 48) :
    (ZERO_HASHES H).get? i = some (zeroHashes H i) := by
  have h := ZERO_HASHES_fold_invariant H 48 (by omega)
  exact h.2.1 i hi

theorem get_zero_hash_eq (H : HashF) (h : Nat) (hh : h ≤ 48) :
    get_zero_hash H h = some (zeroHashes H h) := by
  rw [get_zero_hash, if_pos (by simpa [MAX_TREE_DEPTH] using hh)]
  exact ZERO_HASHES_get? H h hh

theorem get_zero_hash_none (H : HashF) (h : Nat) (hh : 48 < h) :
    get_zero_hash H h = none := by
  rw [get_zero_hash, if_neg (by simp [MAX_TREE_DEPTH]; omega)]

/-! ### Reduction-round lemmas -/

theorem collectSome_map (f : Nat → Option Bytes) (g : Nat → Nat) :
    ∀ l : List Nat, collectSome f (l.map g) = collectSome (fun i => f (g i)) l
  | [] => rfl
  | i :: rest => by
    simp only [List.map_cons, collectSome, collectSome_map f g rest]

theorem parent_node_cons_cons (H : HashF) (level : Nat) (a b : Bytes) (rest : List Bytes)
    (i : Nat) : parent_node H level (a :: b :: rest) (i + 1) = parent_node H level rest i := by
  have h1 : (a :: b :: rest).get? (2 * (i + 1)) = rest.get? (2 * i) := by
    have h : 2 * (i + 1) = 2 * i + 1 + 1 := by ring
    rw [h]
    rfl
  have h2 : (a :: b :: rest).get? (2 * (i + 1) + 1) = rest.get? (2 * i + 1) := by
    have h : 2 * (i + 1) + 1 = 2 * i + 1 + 1 + 1 := by ring
    rw [h]
    rfl
  simp only [parent_node, h1, h2]

theorem merkle_round_eq_pairsZ (H : HashF) (Hlen : ∀ b, (H b).length = 32) (level : Nat)
    (hlev : level ≤ 48) :
    ∀ chunks : List Bytes, (∀ c ∈ chunks, c.length = 32) →
      merkle_round H level chunks = some (pairsZ H level chunks)
  | [], _ => by
    simp [merkle_round, next_even_number, collectSome, pairsZ]
  | [a], h => by
    have ha : a.length = 32 := h a (by simp)
    have hr : next_even_number [a].length / 2 = 1 := by simp [next_even_number]
    rw [merkle_round, hr, show List.range 1 = [0] from rfl]
    have hp : parent_node H level [a] 0 =
        (get_zero_hash H level).bind fun right =>
          if a.length = BYTES_PER_CHUNK ∧ right.length = BYTES_PER_CHUNK then
            some (hash_concat H a right)
          else none := rfl
    simp only [collectSome, hp, get_zero_hash_eq H level hlev]
    simp [pairsZ, ha, zeroHashes_length H Hlen, BYTES_PER_CHUNK, collectSome]
  | a :: b :: rest, h => by
    have ha : a.length = 32 := h a (by simp)
    have hb : b.length = 32 := h b (by simp)
    have hrest : ∀ c ∈ rest, c.length = 32 := fun c hc => h c (by simp [hc])
    have hcount : next_even_number (a :: b :: rest).length / 2 =
        next_even_number rest.length / 2 + 1 := by
      simp only [next_even_number, List.length_cons]
      omega
    rw [merkle_round, hcount, List.range_succ_eq_map]
    simp only [collectSome, collectSome_map]
    have hpn : ∀ i, parent_node H level (a :: b :: rest) (Nat.succ i) =
        parent_node H level rest i := fun i => parent_node_cons_cons H level a b rest i
    have h0 : parent_node H level (a :: b :: rest) 0 = some (hash_concat H a b) := by
      simp [parent_node, ha, hb, BYTES_PER_CHUNK]
    rw [h0]
    have hrec := merkle_round_eq_pairsZ H Hlen level hlev rest hrest
    rw [merkle_round] at hrec
    simp only [hpn, hrec]
    simp [pairsZ]

theorem pairsZ_length (H : HashF) (level : Nat) :
    ∀ cs : List Bytes, (pairsZ H level cs).length = (cs.length + 1) / 2
  | [] => rfl
  | [a] => by simp [pairsZ]
  | a :: b :: rest => by
    simp only [pairsZ, List.length_cons, pairsZ_length H level rest]
    omega

theorem pairsZ_all32 (H : HashF) (Hlen : ∀ b, (H b).length = 32) (level : Nat) :
    ∀ cs : List Bytes, ∀ c ∈ pairsZ H level cs, c.length = 32
  | [] => by simp [pairsZ]
  | [a] => by simp [pairsZ, hash_concat, Hlen]
  | a :: b :: rest => by
    simp only [pairsZ, List.mem_cons]
    rintro c (rfl | hc)
    · simp [hash_concat, Hlen]
    · exact pairsZ_all32 H Hlen level rest c hc

theorem pairsZ_ne_nil (H : HashF) (level : Nat) :
    ∀ cs : List Bytes, cs ≠ [] → pairsZ H level cs ≠ []
  | [], h => absurd rfl h
  | [a], _ => by simp [pairsZ]
  | a :: b :: rest, _ => by simp [pairsZ]

/-- After the rounds for `k` consecutive levels starting at `level` (all of
them within the zero-hash cache), the chunk count is the `k`-fold ceiling
half of the initial count, characterized by the two inequalities below. -/
theorem merkleize_rounds_spec (H : HashF) (Hlen : ∀ b, (H b).length = 32) :
    ∀ (k level : Nat) (cs : List Bytes), cs ≠ [] → (∀ c ∈ cs, c.length = 32) →
      level + k ≤ 49 →
      ∃ cs', merkleize_rounds H (List.range' level k) cs = some cs' ∧
        cs' ≠ [] ∧ (∀ c ∈ cs', c.length = 32) ∧
        (cs'.length - 1) * 2 ^ k < cs.length ∧ cs.length ≤ cs'.length * 2 ^ k
  | 0, level, cs, hne, h32, _ => by
    refine ⟨cs, by simp [merkleize_rounds], hne, h32, ?_, by simp⟩
    have : 0 < cs.length := List.length_pos.mpr hne
    simp
    omega
  | k + 1, level, cs, hne, h32, hlev => by
    have hlev48 : level ≤ 48 := by omega
    have hround := merkle_round_eq_pairsZ H Hlen level hlev48 cs h32
    obtain ⟨cs', hrec, hne', h32', hlow, hhigh⟩ :=
      merkleize_rounds_spec H Hlen k (level + 1) (pairsZ H level cs)
        (pairsZ_ne_nil H level cs hne) (pairsZ_all32 H Hlen level cs) (by omega)
    refine ⟨cs', ?_, hne', h32', ?_, ?_⟩
    · rw [List.range'_succ]
      simp only [merkleize_rounds, hround, Option.bind_some]
      exact hrec
    · rw [pairsZ_length] at hlow
      have hp : (2 : Nat) ^ (k + 1) = 2 ^ k * 2 := by ring
      rw [hp]
      have := Nat.one_le_two_pow (n := k)
      set e := (cs'.length - 1) * 2 ^ k with he
      calc (cs'.length - 1) * (2 ^ k * 2) = e * 2 := by rw [he]; ring
        _ < cs.length := by omega
    · rw [pairsZ_length] at hhigh
      have hp : (2 : Nat) ^ (k + 1) = 2 ^ k * 2 := by ring
      rw [hp]
      set u := cs'.length * 2 ^ k with hu
      calc cs.length ≤ u * 2 := by omega
        _ = cs'.length * (2 ^ k * 2) := by rw [hu]; ring

theorem naivePairs_replicate_zero (H : HashF) (level : Nat) :
    ∀ k : Nat, naivePairs H (List.replicate (2 * k) (zeroHashes H level)) =
      List.replicate k (zeroHashes H (level + 1))
  | 0 => rfl
  | k + 1 => by
    have h : 2 * (k + 1) = 2 * k + 1 + 1 := by ring
    rw [h, List.replicate_succ, List.replicate_succ]
    simp only [naivePairs, naivePairs_replicate_zero H level k, List.replicate_succ]
    rfl

/-- One naive round over a chunk list padded with zero hashes of the current
level equals the code's substituting round followed by half as many zero
hashes of the next level (the total length must be even so that padding
chunks pair up). -/
theorem naivePairs_append_zeros (H : HashF) (level : Nat) :
    ∀ (xs : List Bytes) (m : Nat), (xs.length + m) % 2 = 0 →
      naivePairs H (xs ++ List.replicate m (zeroHashes H level)) =
        pairsZ H level xs ++ List.replicate (m / 2) (zeroHashes H (level + 1))
  | [], m, hm => by
    obtain ⟨k, rfl⟩ : ∃ k, m = 2 * k := ⟨m / 2, by simp at hm; omega⟩
    rw [List.nil_append, pairsZ, List.nil_append, naivePairs_replicate_zero H level,
      Nat.mul_div_cancel_left _ (by omega : (0 : Nat) < 2)]
  | [a], m, hm => by
    obtain ⟨k, rfl⟩ : ∃ k, m = 2 * k + 1 := ⟨m / 2, by simp at hm; omega⟩
    rw [List.replicate_succ]
    have hstep : ([a] ++ zeroHashes H level :: List.replicate (2 * k) (zeroHashes H level))
        = a :: zeroHashes H level :: List.replicate (2 * k) (zeroHashes H level) := rfl
    rw [hstep]
    simp only [naivePairs, naivePairs_replicate_zero H level, pairsZ]
    have hk : (2 * k + 1) / 2 = k := by omega
    rw [hk]
    rfl
  | a :: b :: rest, m, hm => by
    have hrest : (rest.length + m) % 2 = 0 := by simp at hm; omega
    have hrec := naivePairs_append_zeros H level rest m hrest
    simp only [List.cons_append, naivePairs, pairsZ]
    rw [show rest.append (List.replicate m (zeroHashes H level)) =
        rest ++ List.replicate m (zeroHashes H level) from rfl, hrec]

/-- After the rounds for `k` consecutive in-cache levels, a chunk list that
fits in `2^k` leaves reduces to the single chunk that the naive reference
computes on the list padded with the starting level's zero hashes. -/
theorem merkleize_rounds_naive (H : HashF) (Hlen : ∀ b, (H b).length = 32) :
    ∀ (k level : Nat) (cs : List Bytes), cs ≠ [] → (∀ c ∈ cs, c.length = 32) →
      level + k ≤ 49 → cs.length ≤ 2 ^ k →
      ∃ c, merkleize_rounds H (List.range' level k) cs = some [c] ∧
        naiveIter H k (cs ++ List.replicate (2 ^ k - cs.length) (zeroHashes H level)) = [c]
  | 0, level, cs, hne, _, _, hlen => by
    match cs, hne with
    | [c], _ =>
      refine ⟨c, by simp [merkleize_rounds], ?_⟩
      simp [naiveIter]
    | c :: d :: rest, _ => simp at hlen
  | k + 1, level, cs, hne, h32, hlev, hlen => by
    have hlev48 : level ≤ 48 := by omega
    have hround := merkle_round_eq_pairsZ H Hlen level hlev48 cs h32
    have hplen : (pairsZ H level cs).length = (cs.length + 1) / 2 := pairsZ_length H level cs
    have hp1 : (0 : Nat) < 2 ^ k := Nat.pos_pow_of_pos k (by omega)
    have hpow : (2 : Nat) ^ (k + 1) = 2 ^ k * 2 := by ring
    obtain ⟨c, hrec, hnaive⟩ :=
      merkleize_rounds_naive H Hlen k (level + 1) (pairsZ H level cs)
        (pairsZ_ne_nil H level cs hne) (pairsZ_all32 H Hlen level cs) (by omega)
        (by rw [hplen, hpow] at *; omega)
    refine ⟨c, ?_, ?_⟩
    · rw [List.range'_succ]
      simp only [merkleize_rounds, hround, Option.bind_some]
      exact hrec
    · have hcount : (cs.length + (2 ^ (k + 1) - cs.length)) % 2 = 0 := by
        rw [hpow] at *
        omega
      have hpairs := naivePairs_append_zeros H level cs (2 ^ (k + 1) - cs.length) hcount
      have hhalf : (2 ^ (k + 1) - cs.length) / 2 = 2 ^ k - (pairsZ H level cs).length := by
        rw [hplen, hpow] at *
        omega
      rw [show naiveIter H (k + 1) (cs ++ List.replicate (2 ^ (k + 1) - cs.length)
            (zeroHashes H level)) = naiveIter H k (naivePairs H (cs ++
            List.replicate (2 ^ (k + 1) - cs.length) (zeroHashes H level))) from rfl,
          hpairs, hhalf]
      exact hnaive

theorem flatten_all32_length (cs : List Bytes) (h32 : ∀ c ∈ cs, c.length = 32) :
    cs.flatten.length = 32 * cs.length := by
  induction cs with
  | nil => simp
  | cons c rest ih =>
    simp only [List.flatten_cons, List.length_append, List.length_cons,
      h32 c (by simp), ih (fun c hc => h32 c (by simp [hc]))]
    ring

/-- `merkleize_chunks` on a non-empty store always runs the rounds for levels
`1, ..., height-2` (an empty level list when `height ≤ 2`) and then checks
the single-chunk assertion. -/
theorem merkleize_chunks_unfold (H : HashF) (cs : List Bytes) (height : Nat) (hne : cs ≠ []) :
    merkleize_chunks H cs height =
      (merkleize_rounds H (List.range' 1 (height - 2)) cs).bind fun remaining =>
        if remaining.flatten.length = BYTES_PER_CHUNK then some remaining.flatten else none := by
  rw [merkleize_chunks, if_neg (by simpa using hne)]
  rcases Nat.lt_or_ge 2 height with hgt | hle
  · rw [if_pos hgt]
  · rw [if_neg (by omega), show height - 2 = 0 from by omega]
    rfl

/-! ### Height and packing arithmetic -/

theorem next_power_of_two_aux_spec :
    ∀ (f n p : Nat), 0 < p → n ≤ 2 ^ f * p →
      ∃ j, j ≤ f ∧ next_power_of_two_aux f n p = 2 ^ j * p ∧ n ≤ 2 ^ j * p ∧
        (j = 0 ∨ ¬ n ≤ 2 ^ (j - 1) * p)
  | 0, n, p, _, hn => ⟨0, Nat.le_refl 0, by simp [next_power_of_two_aux], by simpa using hn,
      Or.inl rfl⟩
  | f + 1, n, p, hp, hn => by
    by_cases h : n ≤ p
    · exact ⟨0, by omega, by simp [next_power_of_two_aux, h], by simpa using h, Or.inl rfl⟩
    · obtain ⟨j, hj, heq, hle, hmin⟩ := next_power_of_two_aux_spec f n (2 * p) (by omega)
        (by calc n ≤ 2 ^ (f + 1) * p := hn
              _ = 2 ^ f * (2 * p) := by ring)
      refine ⟨j + 1, by omega, ?_, ?_, Or.inr ?_⟩
      · rw [next_power_of_two_aux, if_neg h, heq]
        ring
      · calc n ≤ 2 ^ j * (2 * p) := hle
          _ = 2 ^ (j + 1) * p := by ring
      · rcases hmin with hj0 | hm
        · subst hj0
          simpa using h
        · rcases Nat.eq_zero_or_pos j with hj0 | hjpos
          · subst hj0
            simpa using h
          · have hrw : 2 ^ (j + 1 - 1) * p = 2 ^ (j - 1) * (2 * p) := by
              have hsub : j - 1 + 1 = j := by omega
              calc 2 ^ (j + 1 - 1) * p = 2 ^ j * p := by norm_num
                _ = 2 ^ (j - 1 + 1) * p := by rw [hsub]
                _ = 2 ^ (j - 1) * (2 * p) := by ring
            rw [hrw]
            exact hm

theorem next_power_of_two_spec (n : Nat) :
    ∃ k, next_power_of_two n = 2 ^ k ∧ n ≤ 2 ^ k ∧ (k = 0 ∨ ¬ n ≤ 2 ^ (k - 1)) := by
  obtain ⟨j, _, heq, hle, hmin⟩ := next_power_of_two_aux_spec n n 1 (by omega)
    (by simpa using Nat.le_of_lt (Nat.lt_two_pow n))
  exact ⟨j, by simpa [next_power_of_two] using heq, by simpa using hle, by simpa using hmin⟩

theorem trailing_zeros_aux_pow : ∀ (k f : Nat), k ≤ f → trailing_zeros_aux f (2 ^ k) = k
  | 0, 0, _ => rfl
  | 0, f + 1, _ => by simp [trailing_zeros_aux]
  | k + 1, f + 1, hf => by
    have hcond : (2 : Nat) ^ (k + 1) % 2 = 0 ∧ (2 : Nat) ^ (k + 1) ≠ 0 := by
      constructor
      · have : (2 : Nat) ^ (k + 1) = 2 ^ k * 2 := by ring
        omega
      · positivity
    rw [trailing_zeros_aux, if_pos hcond]
    have hdiv : (2 : Nat) ^ (k + 1) / 2 = 2 ^ k := by
      have : (2 : Nat) ^ (k + 1) = 2 ^ k * 2 := by ring
      omega
    rw [hdiv, trailing_zeros_aux_pow k f (by omega)]

theorem trailing_zeros_pow (k : Nat) : trailing_zeros (2 ^ k) = k :=
  trailing_zeros_aux_pow k (2 ^ k) (Nat.le_of_lt (Nat.lt_two_pow k))

/-- `height_for_leaf_count n` equals `k + 1` where `2^k` is the next power of
two above `n`. -/
theorem height_for_leaf_count_eq (n : Nat) :
    ∃ k, next_power_of_two n = 2 ^ k ∧ height_for_leaf_count n = k + 1 ∧ n ≤ 2 ^ k ∧
      (k = 0 ∨ ¬ n ≤ 2 ^ (k - 1)) := by
  obtain ⟨k, hpow, hle, hmin⟩ := next_power_of_two_spec n
  exact ⟨k, hpow, by rw [height_for_leaf_count, hpow, trailing_zeros_pow], hle, hmin⟩

/-- `height_for_leaf_count n` is at least 1, a perfect tree of that height
has at least `n` leaves, and it is minimal among such heights. -/
theorem height_for_leaf_count_spec (n : Nat) :
    1 ≤ height_for_leaf_count n ∧ n ≤ 2 ^ (height_for_leaf_count n - 1) ∧
      ∀ h, 1 ≤ h → n ≤ 2 ^ (h - 1) → height_for_leaf_count n ≤ h := by
  obtain ⟨k, _, hh, hle, hmin⟩ := height_for_leaf_count_eq n
  refine ⟨by omega, by simpa [hh] using hle, ?_⟩
  intro h h1 hle'
  rw [hh]
  by_contra hcon
  push_neg at hcon
  rcases hmin with hk0 | hm
  · omega
  · have hk1 : 1 ≤ k := by omega
    have hmono : (2 : Nat) ^ (h - 1) ≤ 2 ^ (k - 1) :=
      Nat.pow_le_pow_right (by omega) (by omega)
    exact hm (Nat.le_trans hle' hmono)

theorem height_for_leaf_count_le_49 (n : Nat) (hn : n ≤ 2 ^ 48) :
    height_for_leaf_count n ≤ 49 :=
  (height_for_leaf_count_spec n).2.2 49 (by omega) (by simpa using hn)

/-- The code's `(v + f - 1) / f` is the ceiling of `v / f`: it is the least
`m` with `v ≤ m * f`. -/
theorem ceil_div_spec (v f : Nat) (hf : 0 < f) :
    v ≤ ((v + f - 1) / f) * f ∧ ∀ m, v ≤ m * f → (v + f - 1) / f ≤ m := by
  constructor
  · have h := le_smul_ceilDiv (b := v) hf
    rw [Nat.ceilDiv_eq_add_pred_div, smul_eq_mul, Nat.mul_comm] at h
    exact h
  · intro m h
    rw [← Nat.ceilDiv_eq_add_pred_div]
    exact (ceilDiv_le_iff_le_mul hf).2 (by rwa [Nat.mul_comm] at h)

/-! ### Streaming hasher lemmas -/

theorem update_maybe_padded_first_chunk (st : VecTreeHasher) (bytes : Bytes) :
    (update_maybe_padded st bytes).first_chunk = st.first_chunk := by
  simp only [update_maybe_padded]
  split <;> rfl

theorem finish_context_first_chunk (H : HashF) (st : VecTreeHasher) :
    (finish_context H st).first_chunk = st.first_chunk := rfl

theorem apply_slice_first_chunk (H : HashF) (st : VecTreeHasher) (bytes : Bytes) :
    (apply_slice H st bytes).first_chunk = st.first_chunk := by
  simp only [apply_slice]
  split <;> split <;>
    simp [update_maybe_padded_first_chunk, finish_context_first_chunk]

theorem update_maybe_padded_should_pack (st : VecTreeHasher) (bytes : Bytes) :
    (update_maybe_padded st bytes).should_pack = st.should_pack := by
  simp only [update_maybe_padded]
  split <;> rfl

theorem apply_slice_should_pack (H : HashF) (st : VecTreeHasher) (bytes : Bytes) :
    (apply_slice H st bytes).should_pack = st.should_pack := by
  simp only [apply_slice]
  split <;> split <;>
    simp [update_maybe_padded_should_pack, finish_context]

theorem update_first_chunk_buf (st : VecTreeHasher) (bytes : Bytes) :
    (update_first_chunk st bytes).buf = st.buf := by
  simp only [update_first_chunk]
  split <;> try split
  all_goals rfl

theorem update_first_chunk_chunks (st : VecTreeHasher) (bytes : Bytes) :
    (update_first_chunk st bytes).chunks = st.chunks := by
  simp only [update_first_chunk]
  split <;> try split
  all_goals rfl

theorem update_first_chunk_height (st : VecTreeHasher) (bytes : Bytes) :
    (update_first_chunk st bytes).height = st.height := by
  simp only [update_first_chunk]
  split <;> try split
  all_goals rfl

theorem update_first_chunk_should_pack (st : VecTreeHasher) (bytes : Bytes) :
    (update_first_chunk st bytes).should_pack = st.should_pack := by
  simp only [update_first_chunk]
  split <;> try split
  all_goals rfl

/-- Feeding the fast-path buffer twice is feeding it the concatenation. -/
theorem update_first_chunk_append (st : VecTreeHasher) (a b : Bytes) :
    update_first_chunk (update_first_chunk st a) b = update_first_chunk st (a ++ b) := by
  cases hfc : st.first_chunk with
  | none => simp [update_first_chunk, hfc]
  | some fc =>
    by_cases h1 : fc.length + a.length ≤ BYTES_PER_CHUNK
    · by_cases h2 : fc.length + (a ++ b).length ≤ BYTES_PER_CHUNK
      · simp only [update_first_chunk, hfc, if_pos h1]
        rw [if_pos (by simpa [List.length_append] using
          (by simp [List.length_append] at h2 ⊢; omega : (fc ++ a).length + b.length ≤
            BYTES_PER_CHUNK)), if_pos h2]
        simp [List.append_assoc]
      · simp only [update_first_chunk, hfc, if_pos h1]
        rw [if_neg (by simp [List.length_append] at h2 ⊢; omega), if_neg h2]
    · have h2 : ¬ fc.length + (a ++ b).length ≤ BYTES_PER_CHUNK := by
        simp only [List.length_append]
        simp only [BYTES_PER_CHUNK] at h1 ⊢
        omega
      simp only [update_first_chunk, hfc, if_neg h1]
      rw [if_neg h2]

/-! ### Streaming composition lemmas -/

theorem ump_packed (s : VecTreeHasher) (b : Bytes) (h : s.should_pack = true) :
    update_maybe_padded s b = { s with buf := s.buf ++ b } := by
  simp [update_maybe_padded, h]

theorem apply_slice_packed (H : HashF) (st : VecTreeHasher) (bytes : Bytes)
    (hp : st.should_pack = true) (hinv : st.buf.length < 64) (hb : bytes.length ≤ 32) :
    apply_slice H st bytes =
      if st.buf.length + bytes.length < 64 then { st with buf := st.buf ++ bytes }
      else if st.buf.length + bytes.length = 64 then
        { st with chunks := st.chunks ++ [H (st.buf ++ bytes)], buf := [] }
      else
        { st with
            chunks := st.chunks ++ [H (st.buf ++ bytes.take (64 - st.buf.length))],
            buf := bytes.drop (64 - st.buf.length) } := by
  have h64 : (BYTES_PER_CHUNK * 2 : Nat) = 64 := rfl
  simp only [apply_slice, h64]
  by_cases hfit : bytes.length ≤ 64 - st.buf.length
  · rw [if_pos hfit]
    simp only [ump_packed, hp]
    by_cases hfull : st.buf.length + bytes.length = 64
    · have hc : ({ st with buf := st.buf ++ bytes } : VecTreeHasher).buf.length = 64 := by
        simpa [List.length_append] using hfull
      rw [if_pos hc, if_neg (by omega), if_pos hfull]
      simp [finish_context]
    · have hc : ¬ ({ st with buf := st.buf ++ bytes } : VecTreeHasher).buf.length = 64 := by
        simp [List.length_append]
        omega
      rw [if_neg hc, if_pos (by omega)]
  · rw [if_neg hfit]
    have hbig : 64 < st.buf.length + bytes.length := by omega
    have hdlen : (bytes.drop (64 - st.buf.length)).length =
        st.buf.length + bytes.length - 64 := by
      simp [List.length_drop]
      omega
    simp only [ump_packed, hp, finish_context, List.nil_append]
    rw [if_neg (by rw [hdlen]; omega), if_neg (by omega), if_neg (by omega)]

theorem apply_slice_packed_buf_lt (H : HashF) (st : VecTreeHasher) (bytes : Bytes)
    (hp : st.should_pack = true) (hinv : st.buf.length < 64) (hb : bytes.length ≤ 32) :
    (apply_slice H st bytes).buf.length < 64 := by
  rw [apply_slice_packed H st bytes hp hinv hb]
  split_ifs with h1 h2
  · simp only [List.length_append]
    omega
  · simp
  · simp only [List.length_drop]
    omega

theorem apply_slice_append (H : HashF) (st : VecTreeHasher) (s1 s2 : Bytes)
    (hp : st.should_pack = true) (hinv : st.buf.length < 64)
    (hlen : s1.length + s2.length ≤ 32) :
    apply_slice H st (s1 ++ s2) = apply_slice H (apply_slice H st s1) s2 := by
  have ha : s1.length ≤ 32 := by omega
  have hb : s2.length ≤ 32 := by omega
  have hab : (s1 ++ s2).length ≤ 32 := by simp only [List.length_append]; omega
  rw [apply_slice_packed H st (s1 ++ s2) hp hinv hab,
      apply_slice_packed H st s1 hp hinv ha]
  simp only [List.length_append]
  have e1 : st.buf.length + (s1.length + s2.length) =
      st.buf.length + s1.length + s2.length := by omega
  rw [e1]
  by_cases c1 : st.buf.length + s1.length < 64
  · rw [if_pos c1]
    rw [apply_slice_packed H _ s2 (by exact hp)
      (by simp only [List.length_append]; omega) hb]
    simp only [List.length_append, List.append_assoc, Nat.sub_sub]
    by_cases d1 : st.buf.length + s1.length + s2.length < 64
    · rw [if_pos d1, if_pos d1]
    · rw [if_neg d1, if_neg d1]
      by_cases d2 : st.buf.length + s1.length + s2.length = 64
      · rw [if_pos d2, if_pos d2]
      · rw [if_neg d2, if_neg d2]
        have htake : (s1 ++ s2).take (64 - st.buf.length) =
            s1 ++ s2.take (64 - (st.buf.length + s1.length)) := by
          rw [List.take_append_eq_append_take, List.take_of_length_le (by omega), Nat.sub_sub]
        have hdrop : (s1 ++ s2).drop (64 - st.buf.length) =
            s2.drop (64 - (st.buf.length + s1.length)) := by
          rw [List.drop_append_eq_append_drop, List.drop_of_length_le (by omega), Nat.sub_sub,
            List.nil_append]
        rw [htake, hdrop]
  · rw [if_neg c1]
    by_cases c2 : st.buf.length + s1.length = 64
    · rw [if_pos c2]
      rw [apply_slice_packed H _ s2 (by exact hp) (by simp) hb]
      simp only [List.length_nil, List.nil_append, Nat.zero_add]
      rw [if_pos (by omega : s2.length < 64)]
      by_cases d0 : s2.length = 0
      · have hs2 : s2 = [] := List.length_eq_zero.mp d0
        subst hs2
        simp only [List.length_nil, Nat.add_zero, List.append_nil]
        rw [if_neg (by omega), if_pos c2]
      · rw [if_neg (by omega), if_neg (by omega)]
        have he : 64 - st.buf.length = s1.length := by omega
        rw [he, List.take_left, List.drop_left]
    · rw [if_neg c2]
      rw [apply_slice_packed H _ s2 (by exact hp)
        (by simp only [List.length_drop]; omega) hb]
      simp only [List.length_drop]
      rw [if_pos (by omega : s1.length - (64 - st.buf.length) + s2.length < 64)]
      rw [if_neg (by omega), if_neg (by omega)]
      have htake : (s1 ++ s2).take (64 - st.buf.length) = s1.take (64 - st.buf.length) := by
        rw [List.take_append_eq_append_take,
          show 64 - st.buf.length - s1.length = 0 from by omega, List.take_zero,
          List.append_nil]
      have hdrop : (s1 ++ s2).drop (64 - st.buf.length) =
          s1.drop (64 - st.buf.length) ++ s2 := by
        rw [List.drop_append_eq_append_drop,
          show 64 - st.buf.length - s1.length = 0 from by omega, List.drop_zero]
      rw [htake, hdrop]

theorem apply_slice_nil (H : HashF) (st : VecTreeHasher)
    (hp : st.should_pack = true) (hinv : st.buf.length < 64) :
    apply_slice H st [] = st := by
  rw [apply_slice_packed H st [] hp hinv (by simp)]
  rw [if_pos (by simp only [List.length_nil, Nat.add_zero]; omega)]
  simp

theorem apply_slice_eq_singles (H : HashF) :
    ∀ (s : Bytes) (st : VecTreeHasher), st.should_pack = true → st.buf.length < 64 →
      s.length ≤ 32 →
      apply_slice H st s = (s.map fun x => [x]).foldl (apply_slice H) st
  | [], st, hp, hinv, _ => by simp [apply_slice_nil H st hp hinv]
  | x :: rest, st, hp, hinv, hlen => by
    have hsplit := apply_slice_append H st [x] rest hp hinv (by simp at hlen ⊢; omega)
    rw [show ([x] ++ rest : Bytes) = x :: rest from rfl] at hsplit
    rw [hsplit]
    simp only [List.map_cons, List.foldl_cons]
    exact apply_slice_eq_singles H rest (apply_slice H st [x])
      (by rw [apply_slice_should_pack]; exact hp)
      (apply_slice_packed_buf_lt H st [x] hp hinv (by simp))
      (by simp only [List.length_cons] at hlen; omega)

theorem foldl_slices_eq_singles (H : HashF) :
    ∀ (ss : List Bytes) (st : VecTreeHasher), st.should_pack = true → st.buf.length < 64 →
      (∀ s ∈ ss, s.length ≤ 32) →
      ss.foldl (apply_slice H) st = (ss.flatten.map fun x => [x]).foldl (apply_slice H) st
  | [], st, _, _, _ => by simp
  | s :: ss, st, hp, hinv, hall => by
    simp only [List.foldl_cons, List.flatten_cons, List.map_append, List.foldl_append]
    rw [← apply_slice_eq_singles H s st hp hinv (hall s (by simp))]
    exact foldl_slices_eq_singles H ss (apply_slice H st s)
      (by rw [apply_slice_should_pack]; exact hp)
      (apply_slice_packed_buf_lt H st s hp hinv (hall s (by simp)))
      (fun t ht => hall t (by simp [ht]))

theorem chunksAux_spec : ∀ (f : Nat) (l : Bytes), l.length ≤ f →
    (chunksAux f l).flatten = l ∧ ∀ s ∈ chunksAux f l, s.length ≤ 32
  | 0, l, h => by
    have hl : l = [] := List.length_eq_zero.mp (by omega)
    subst hl
    simp [chunksAux]
  | f + 1, [], _ => by simp [chunksAux]
  | f + 1, x :: xs, h => by
    obtain ⟨hjoin, hall⟩ := chunksAux_spec f ((x :: xs).drop 32)
      (by simp only [List.length_drop, List.length_cons] at *; omega)
    refine ⟨?_, ?_⟩
    · simp only [chunksAux, List.flatten_cons, hjoin, List.take_append_drop]
    · intro s hs
      simp only [chunksAux, List.mem_cons] at hs
      rcases hs with rfl | hs
      · simp only [List.length_take]
        omega
      · exact hall s hs

theorem foldl_apply_slice_first_chunk (H : HashF) :
    ∀ (ss : List Bytes) (st : VecTreeHasher),
      (ss.foldl (apply_slice H) st).first_chunk = st.first_chunk
  | [], _ => rfl
  | s :: ss, st => by
    rw [List.foldl_cons, foldl_apply_slice_first_chunk H ss, apply_slice_first_chunk]

theorem foldl_apply_slice_should_pack (H : HashF) :
    ∀ (ss : List Bytes) (st : VecTreeHasher),
      (ss.foldl (apply_slice H) st).should_pack = st.should_pack
  | [], _ => rfl
  | s :: ss, st => by
    rw [List.foldl_cons, foldl_apply_slice_should_pack H ss, apply_slice_should_pack]

theorem update_should_pack (H : HashF) (st : VecTreeHasher) (bytes : Bytes) :
    (VecTreeHasher.update H st bytes).should_pack = st.should_pack := by
  rw [VecTreeHasher.update, foldl_apply_slice_should_pack, update_first_chunk_should_pack]

theorem update_first_chunk_eq (H : HashF) (st : VecTreeHasher) (bytes : Bytes) :
    (VecTreeHasher.update H st bytes).first_chunk = (update_first_chunk st bytes).first_chunk := by
  rw [VecTreeHasher.update, foldl_apply_slice_first_chunk]

theorem foldl_singles_buf_lt (H : HashF) :
    ∀ (S : Bytes) (st : VecTreeHasher), st.should_pack = true → st.buf.length < 64 →
      ((S.map fun x => [x]).foldl (apply_slice H) st).buf.length < 64
  | [], _, _, hinv => hinv
  | x :: S, st, hp, hinv => by
    simp only [List.map_cons, List.foldl_cons]
    exact foldl_singles_buf_lt H S (apply_slice H st [x])
      (by rw [apply_slice_should_pack]; exact hp)
      (apply_slice_packed_buf_lt H st [x] hp hinv (by simp))

theorem update_eq_singles (H : HashF) (st : VecTreeHasher) (bytes : Bytes)
    (hp : st.should_pack = true) (hinv : st.buf.length < 64) :
    VecTreeHasher.update H st bytes =
      (bytes.map fun x => [x]).foldl (apply_slice H) (update_first_chunk st bytes) := by
  rw [VecTreeHasher.update]
  obtain ⟨hjoin, hall⟩ := chunksAux_spec bytes.length bytes (Nat.le_refl _)
  rw [foldl_slices_eq_singles H (chunks32 bytes) (update_first_chunk st bytes)
    (by rw [update_first_chunk_should_pack]; exact hp)
    (by rw [update_first_chunk_buf]; exact hinv) hall]
  rw [show (chunks32 bytes).flatten = bytes from hjoin]

theorem update_buf_lt (H : HashF) (st : VecTreeHasher) (bytes : Bytes)
    (hp : st.should_pack = true) (hinv : st.buf.length < 64) :
    (VecTreeHasher.update H st bytes).buf.length < 64 := by
  rw [update_eq_singles H st bytes hp hinv]
  exact foldl_singles_buf_lt H bytes (update_first_chunk st bytes)
    (by rw [update_first_chunk_should_pack]; exact hp)
    (by rw [update_first_chunk_buf]; exact hinv)

theorem apply_slice_set_first_chunk (H : HashF) (st : VecTreeHasher) (s : Bytes)
    (x : Option Bytes) :
    apply_slice H { st with first_chunk := x } s =
      { apply_slice H st s with first_chunk := x } := by
  simp only [apply_slice, update_maybe_padded, finish_context]
  split_ifs <;> rfl

theorem update_first_chunk_apply_slice (H : HashF) (st : VecTreeHasher) (s y : Bytes) :
    update_first_chunk (apply_slice H st s) y = apply_slice H (update_first_chunk st y) s := by
  cases hfc : st.first_chunk with
  | none =>
    simp only [update_first_chunk, apply_slice_first_chunk, hfc]
  | some fc =>
    simp only [update_first_chunk, apply_slice_first_chunk, hfc]
    by_cases hl : fc.length + y.length ≤ BYTES_PER_CHUNK
    · rw [if_pos hl, if_pos hl]
      exact (apply_slice_set_first_chunk H st s (some (fc ++ y))).symm
    · rw [if_neg hl, if_neg hl]
      exact (apply_slice_set_first_chunk H st s none).symm

theorem update_first_chunk_foldl (H : HashF) :
    ∀ (ss : List Bytes) (st : VecTreeHasher) (y : Bytes),
      update_first_chunk (ss.foldl (apply_slice H) st) y =
        ss.foldl (apply_slice H) (update_first_chunk st y)
  | [], _, _ => rfl
  | s :: ss, st, y => by
    simp only [List.foldl_cons]
    rw [update_first_chunk_foldl H ss (apply_slice H st s) y, update_first_chunk_apply_slice]

theorem update_append (H : HashF) (st : VecTreeHasher) (a b : Bytes)
    (hp : st.should_pack = true) (hinv : st.buf.length < 64) :
    VecTreeHasher.update H (VecTreeHasher.update H st a) b =
      VecTreeHasher.update H st (a ++ b) := by
  rw [update_eq_singles H st a hp hinv,
      update_eq_singles H st (a ++ b) hp hinv]
  rw [update_eq_singles H _ b
    (by rw [← update_eq_singles H st a hp hinv, update_should_pack]; exact hp)
    (by rw [← update_eq_singles H st a hp hinv]; exact update_buf_lt H st a hp hinv)]
  rw [update_first_chunk_foldl, update_first_chunk_append]
  rw [List.map_append, List.foldl_append]

theorem update_nil (H : HashF) (st : VecTreeHasher)
    (hfc : ∀ l, st.first_chunk = some l → l.length ≤ 32) :
    VecTreeHasher.update H st [] = st := by
  rw [VecTreeHasher.update]
  rw [show chunks32 [] = [] from rfl, List.foldl_nil]
  cases hc : st.first_chunk with
  | none => simp [update_first_chunk, hc]
  | some fc =>
    have : fc.length ≤ 32 := hfc fc hc
    simp only [update_first_chunk, hc, List.length_nil, Nat.add_zero]
    rw [if_pos (by simpa [BYTES_PER_CHUNK] using this), List.append_nil, ← hc]

theorem update_first_chunk_inv (st : VecTreeHasher) (bytes : Bytes)
    (hfc : ∀ l, st.first_chunk = some l → l.length ≤ 32) :
    ∀ l, (update_first_chunk st bytes).first_chunk = some l → l.length ≤ 32 := by
  intro l hl
  cases hc : st.first_chunk with
  | none =>
    simp only [update_first_chunk, hc] at hl
    exact hfc l (by rw [hc, ← hl])
  | some fc =>
    simp only [update_first_chunk, hc] at hl
    by_cases hcond : fc.length + bytes.length ≤ BYTES_PER_CHUNK
    · rw [if_pos hcond] at hl
      simp only at hl
      have he : fc ++ bytes = l := by injection hl
      rw [← he, List.length_append]
      simp only [BYTES_PER_CHUNK] at hcond
      omega
    · rw [if_neg hcond] at hl
      exact absurd hl (by simp)

theorem update_inv (H : HashF) (st : VecTreeHasher) (bytes : Bytes)
    (hfc : ∀ l, st.first_chunk = some l → l.length ≤ 32) :
    ∀ l, (VecTreeHasher.update H st bytes).first_chunk = some l → l.length ≤ 32 := by
  intro l hl
  rw [update_first_chunk_eq] at hl
  exact update_first_chunk_inv st bytes hfc l hl

theorem foldl_update_eq_update_flatten (H : HashF) :
    ∀ (bss : List Bytes) (st : VecTreeHasher), st.should_pack = true →
      st.buf.length < 64 → (∀ l, st.first_chunk = some l → l.length ≤ 32) →
      bss.foldl (VecTreeHasher.update H) st = VecTreeHasher.update H st bss.flatten
  | [], st, _, _, hfc => by
    rw [List.foldl_nil, List.flatten_nil, update_nil H st hfc]
  | bs :: bss, st, hp, hinv, hfc => by
    rw [List.foldl_cons, List.flatten_cons,
      foldl_update_eq_update_flatten H bss (VecTreeHasher.update H st bs)
        (by rw [update_should_pack]; exact hp)
        (update_buf_lt H st bs hp hinv)
        (update_inv H st bs hfc)]
    exact update_append H st bs bss.flatten hp hinv

/-! ### Claim theorems -/

/-- C1 (amended): for a packed hasher, the final root is independent of how
the byte stream is split across `update` calls: feeding the sub-slices one by
one equals feeding their concatenation in a single call, for every hash
function, target height and list of sub-slices. -/
theorem claim1_packed_streaming_invariant (H : HashF) (height : Nat) (bss : List Bytes) :
    VecTreeHasher.finish H (bss.foldl (VecTreeHasher.update H) (VecTreeHasher.packed height)) =
      VecTreeHasher.finish H (VecTreeHasher.update H (VecTreeHasher.packed height)
        bss.flatten) := by
  rw [foldl_update_eq_update_flatten H bss (VecTreeHasher.packed height) rfl
    (by rw [show (VecTreeHasher.packed height).buf = [] from rfl]; simp)
    (by
      intro l hl
      rw [show (VecTreeHasher.packed height).first_chunk = some [] from rfl] at hl
      injection hl with he
      rw [← he]
      simp)]

/-- C1 counterexample: with the `NotPacked` policy, splitting 32 bytes into
two 16-byte `update` calls yields a different root from one 32-byte call,
because each call is zero-padded to its own chunk. -/
theorem claim1_counterexample :
    VecTreeHasher.finish probeHash
        (VecTreeHasher.update probeHash
          (VecTreeHasher.update probeHash (VecTreeHasher.not_packed 2) (List.replicate 16 1))
          (List.replicate 16 1)) ≠
      VecTreeHasher.finish probeHash
        (VecTreeHasher.update probeHash (VecTreeHasher.not_packed 2)
          (List.replicate 32 1)) := by
  decide

/-- C2 (amended): the chunk store holds level-1 nodes (each already covering
two leaves), so the height matching `n` stored chunks is
`height_for_leaf_count n + 1`; with that height `merkleize_chunks` equals the
naive pairwise reference applied to the chunks padded up to the next power of
two with level-1 zero hashes (no padding when `n` is a power of two); and
`merkleize_chunks [c] 1 = c` with no hashing. -/
theorem claim2_merkleize_eq_naive (H : HashF) (Hlen : ∀ b, (H b).length = 32)
    (cs : List Bytes) (hne : cs ≠ []) (h32 : ∀ c ∈ cs, c.length = 32)
    (hbound : cs.length ≤ 2 ^ 48) :
    (∃ c, merkleize_chunks H cs (height_for_leaf_count cs.length + 1) = some c ∧
      naiveIter H (height_for_leaf_count cs.length - 1)
        (cs ++ List.replicate (2 ^ (height_for_leaf_count cs.length - 1) - cs.length)
          (zeroHashes H 1)) = [c]) ∧
    ∀ c0 : Bytes, c0.length = 32 → merkleize_chunks H [c0] 1 = some c0 := by
  constructor
  · obtain ⟨h1, hle, _⟩ := height_for_leaf_count_spec cs.length
    have h49 : height_for_leaf_count cs.length ≤ 49 :=
      height_for_leaf_count_le_49 cs.length hbound
    obtain ⟨c, hrounds, hnaive⟩ := merkleize_rounds_naive H Hlen
      (height_for_leaf_count cs.length - 1) 1 cs hne h32 (by omega) hle
    refine ⟨c, ?_, hnaive⟩
    have hc32 : c.length = 32 := by
      obtain ⟨cs', hrounds', _, h32', _, _⟩ := merkleize_rounds_spec H Hlen
        (height_for_leaf_count cs.length - 1) 1 cs hne h32 (by omega)
      rw [hrounds] at hrounds'
      have : cs' = [c] := by injection hrounds'.symm
      subst this
      exact h32' c (by simp)
    rw [merkleize_chunks_unfold H cs _ hne,
      show height_for_leaf_count cs.length + 1 - 2 = height_for_leaf_count cs.length - 1
        from by omega, hrounds]
    simp [hc32, BYTES_PER_CHUNK]
  · intro c0 h
    rw [merkleize_chunks_unfold H [c0] 1 (by simp)]
    simp [merkleize_rounds, h, BYTES_PER_CHUNK]

/-- C2 counterexample: at the height the claim states
(`height_for_leaf_count 2 = 2` for two chunks) the reduction performs no
round, two chunks remain, and the final assertion fails (`none`), while the
naive reference yields a root chunk. -/
theorem claim2_counterexample :
    merkleize_chunks constHash [List.replicate 32 0, List.replicate 32 0]
        (height_for_leaf_count 2) = none ∧
      naiveIter constHash (height_for_leaf_count 2 - 1)
        [List.replicate 32 0, List.replicate 32 0] =
        [constHash (List.replicate 32 0 ++ List.replicate 32 0)] := by
  constructor
  · decide
  · decide

/-- C2 witness: the amended claim evaluated for three all-zero chunks. -/
theorem claim2_witness :
    (∃ c, merkleize_chunks constHash
        [List.replicate 32 0, List.replicate 32 0, List.replicate 32 0]
        (height_for_leaf_count 3 + 1) = some c ∧
      naiveIter constHash (height_for_leaf_count 3 - 1)
        ([List.replicate 32 0, List.replicate 32 0, List.replicate 32 0] ++
          List.replicate (2 ^ (height_for_leaf_count 3 - 1) - 3)
            (zeroHashes constHash 1)) = [c]) ∧
    ∀ c0 : Bytes, c0.length = 32 → merkleize_chunks constHash [c0] 1 = some c0 :=
  claim2_merkleize_eq_naive constHash (fun _ => rfl)
    [List.replicate 32 0, List.replicate 32 0, List.replicate 32 0]
    (by decide) (by decide) (by decide)

/-- C3: the program's zero-hash table satisfies the recursive reference
definition: its entry 0 is the all-zero chunk and, within the cache bound,
its entry `i+1` is the hash of its entry `i` concatenated with itself. -/
theorem claim3_zero_hash_table (H : HashF) (i : Nat) :
    get_zero_hash H 0 = some (List.replicate 32 0) ∧
    (i + 1 ≤ MAX_TREE_DEPTH →
      get_zero_hash H (i + 1) = (get_zero_hash H i).map fun z => hash_concat H z z) := by
  constructor
  · rw [get_zero_hash_eq H 0 (by omega)]
    rfl
  · intro hi
    have hi48 : i + 1 ≤ 48 := by simpa [MAX_TREE_DEPTH] using hi
    rw [get_zero_hash_eq H (i + 1) hi48, get_zero_hash_eq H i (by omega)]
    rfl

/-- C3 witness: the table's zero-chunk anchor and the recursion at entry 5,
for a concrete hash function. -/
theorem claim3_witness :
    get_zero_hash constHash 0 = some (List.replicate 32 0) ∧
      get_zero_hash constHash (4 + 1) =
        (get_zero_hash constHash 4).map fun z => hash_concat constHash z z :=
  ⟨(claim3_zero_hash_table constHash 4).1,
    (claim3_zero_hash_table constHash 4).2 (by decide)⟩

/-- C4: `height_for_leaf_count n` is the least height `h ≥ 1` whose perfect
tree has at least `n` leaves (`n ≤ 2^(h-1)`), with the spec's sample values;
`height_for_value_count` feeds the raw count through under `NotPacked` and
the ceiling `⌈vc/f⌉ = (vc + f - 1)/f` (least `m` with `vc ≤ m * f`) under
`Packed f`. -/
theorem claim4_height_arithmetic (n vc f : Nat) :
    (1 ≤ height_for_leaf_count n ∧ n ≤ 2 ^ (height_for_leaf_count n - 1) ∧
      ∀ h, 1 ≤ h → n ≤ 2 ^ (h - 1) → height_for_leaf_count n ≤ h) ∧
    height_for_leaf_count 0 = 1 ∧ height_for_leaf_count 1 = 1 ∧
    height_for_leaf_count 8 = 4 ∧ height_for_leaf_count 9 = 5 ∧
    TreeHashPacking.height_for_value_count TreeHashPacking.NotPacked vc =
      height_for_leaf_count vc ∧
    (0 < f →
      TreeHashPacking.height_for_value_count (TreeHashPacking.Packed f) vc =
        height_for_leaf_count ((vc + f - 1) / f) ∧
      vc ≤ ((vc + f - 1) / f) * f ∧
      ∀ m, vc ≤ m * f → (vc + f - 1) / f ≤ m) :=
  ⟨height_for_leaf_count_spec n, by decide, by decide, by decide, by decide, rfl,
    fun hf => ⟨rfl, (ceil_div_spec vc f hf).1, (ceil_div_spec vc f hf).2⟩⟩

/-- C4 witness: the height characterization evaluated at 9 leaves and at 10
values packed 4 to a chunk. -/
theorem claim4_witness :
    9 ≤ 2 ^ (height_for_leaf_count 9 - 1) ∧
      TreeHashPacking.height_for_value_count (TreeHashPacking.Packed 4) 10 =
        height_for_leaf_count ((10 + 4 - 1) / 4) ∧
      (10 : Nat) ≤ (10 + 4 - 1) / 4 * 4 :=
  ⟨(claim4_height_arithmetic 9 10 4).1.2.1,
    ((claim4_height_arithmetic 9 10 4).2.2.2.2.2.2 (by decide)).1,
    ((claim4_height_arithmetic 9 10 4).2.2.2.2.2.2 (by decide)).2.1⟩

/-- C8: for every hash function and height, an empty chunk store merkleizes
to the all-zero chunk immediately, with no hashing. -/
theorem claim8_empty_store (H : HashF) (height : Nat) :
    merkleize_chunks H [] height = some (List.replicate 32 0) := rfl

/-- C9: `get_zero_hash` returns the cached zero hash for every height up to
`MAX_TREE_DEPTH` (48) and fails fatally above it. -/
theorem claim9_get_zero_hash_domain (H : HashF) (h : Nat) :
    (h ≤ MAX_TREE_DEPTH → get_zero_hash H h = some (zeroHashes H h)) ∧
      (MAX_TREE_DEPTH < h → get_zero_hash H h = none) :=
  ⟨fun hh => get_zero_hash_eq H h (by simpa [MAX_TREE_DEPTH] using hh),
    fun hh => get_zero_hash_none H h (by simpa [MAX_TREE_DEPTH] using hh)⟩

/-- C9 witness: the boundary heights 48 and 49 for a concrete hash. -/
theorem claim9_witness :
    get_zero_hash constHash 48 = some (zeroHashes constHash 48) ∧
      get_zero_hash constHash 49 = none :=
  ⟨(claim9_get_zero_hash_domain constHash 48).1 (by decide),
    (claim9_get_zero_hash_domain constHash 49).2 (by decide)⟩

theorem le_bytes_length : ∀ (w v : Nat), (le_bytes w v).length = w
  | 0, _ => rfl
  | w + 1, v => by
    simp only [le_bytes, List.length_cons, le_bytes_length w (v / 256)]

theorem le_bytes_zero : ∀ w : Nat, le_bytes w 0 = List.replicate w 0
  | 0 => rfl
  | w + 1 => by
    simp only [le_bytes, Nat.zero_mod, Nat.zero_div, le_bytes_zero w, List.replicate_succ]

theorem le_bytes_split : ∀ (w e v : Nat), v < 2 ^ (8 * w) →
    le_bytes (w + e) v = le_bytes w v ++ le_bytes e 0
  | 0, e, v, h => by
    have hv : v = 0 := by simpa using h
    subst hv
    simp [le_bytes]
  | w + 1, e, v, h => by
    have hrw : w + 1 + e = (w + e) + 1 := by omega
    rw [hrw]
    have hdiv : v / 256 < 2 ^ (8 * w) := by
      have hpow : (2 : Nat) ^ (8 * (w + 1)) = 2 ^ (8 * w) * 256 := by
        rw [show 8 * (w + 1) = 8 * w + 8 from by omega, pow_add]
        norm_num
      rw [hpow] at h
      omega
    simp only [le_bytes, le_bytes_split w e (v / 256) hdiv, List.cons_append]

theorem le_decode_le_bytes : ∀ (w v : Nat), v < 2 ^ (8 * w) →
    le_decode (le_bytes w v) = v
  | 0, v, h => by
    have hv : v = 0 := by simpa using h
    subst hv
    rfl
  | w + 1, v, h => by
    have hdiv : v / 256 < 2 ^ (8 * w) := by
      have hpow : (2 : Nat) ^ (8 * (w + 1)) = 2 ^ (8 * w) * 256 := by
        rw [show 8 * (w + 1) = 8 * w + 8 from by omega, pow_add]
        norm_num
      rw [hpow] at h
      omega
    simp only [le_bytes, le_decode, le_decode_le_bytes w (v / 256) hdiv]
    omega

/-- C6: `mix_in_length` hashes the root followed by the length encoded
little-endian and zero-padded to a full 32-byte chunk; with length 0 that
second chunk is the all-zero chunk. -/
theorem claim6_mix_in_length (H : HashF) (root : Bytes) (len : Nat) :
    (len < 2 ^ 64 → mix_in_length H root len = H (root ++ le_bytes 32 len)) ∧
      mix_in_length H root 0 = H (root ++ List.replicate 32 0) := by
  have hresize : ∀ v : Nat, resizeList (le_bytes 8 v) BYTES_PER_CHUNK =
      le_bytes 8 v ++ List.replicate 24 0 := by
    intro v
    rw [resizeList, le_bytes_length, List.take_of_length_le (by rw [le_bytes_length]; decide)]
    rfl
  constructor
  · intro hlen
    rw [mix_in_length, hash_concat, hresize,
      show (32 : Nat) = 8 + 24 from rfl,
      le_bytes_split 8 24 len (by simpa using hlen), le_bytes_zero]
  · rw [mix_in_length, hash_concat, hresize, le_bytes_zero,
      show List.replicate 8 (0 : Nat) ++ List.replicate 24 0 = List.replicate 32 0 from rfl]

/-- C6 witness: the equality evaluated at a zero root and length 300. -/
theorem claim6_witness :
    mix_in_length constHash (List.replicate 32 0) 300 =
      constHash (List.replicate 32 0 ++ le_bytes 32 300) :=
  (claim6_mix_in_length constHash (List.replicate 32 0) 300).1 (by decide)

/-- C7: for an unsigned integer of `byte_width` bytes (the macro is
instantiated at widths 1, 2, 4, 8), the root is 32 bytes whose first
`byte_width` bytes are the little-endian encoding of the value (decoding back
to it), whose remaining bytes are zero, and whose packing factor is
`32 / byte_width`. -/
theorem claim7_uint_roots (w v : Nat) (hw : 1 ≤ w) (hw32 : w ≤ 32)
    (hv : v < 2 ^ (8 * w)) :
    (tree_hash_root_uint w v).length = 32 ∧
    (tree_hash_root_uint w v).take w = le_bytes w v ∧
    le_decode ((tree_hash_root_uint w v).take w) = v ∧
    (tree_hash_root_uint w v).drop w = List.replicate (32 - w) 0 ∧
    tree_hash_packing_uint (8 * w) = TreeHashPacking.Packed (32 / w) := by
  have hroot : tree_hash_root_uint w v = le_bytes w v ++ List.replicate (32 - w) 0 := by
    rw [tree_hash_root_uint, resizeList, le_bytes_length,
      List.take_of_length_le (by rw [le_bytes_length]; simpa [BYTES_PER_CHUNK] using hw32)]
    rfl
  have hlen : (le_bytes w v).length = w := le_bytes_length w v
  have htake : (tree_hash_root_uint w v).take w = le_bytes w v := by
    rw [hroot, List.take_left' hlen]
  refine ⟨?_, htake, ?_, ?_, ?_⟩
  · rw [hroot, List.length_append, hlen, List.length_replicate]
    omega
  · rw [htake]
    exact le_decode_le_bytes w v hv
  · rw [hroot, List.drop_left' hlen]
  · rw [tree_hash_packing_uint,
      show 8 * w / 8 = w from by omega, HASHSIZE]

/-- C7 witness: the 8-byte (u64) instance at value 77. -/
theorem claim7_witness :
    (tree_hash_root_uint 8 77).length = 32 ∧
      le_decode ((tree_hash_root_uint 8 77).take 8) = 77 ∧
      tree_hash_packing_uint (8 * 8) = TreeHashPacking.Packed (32 / 8) :=
  ⟨(claim7_uint_roots 8 77 (by decide) (by decide) (by decide)).1,
    (claim7_uint_roots 8 77 (by decide) (by decide) (by decide)).2.2.1,
    (claim7_uint_roots 8 77 (by decide) (by decide) (by decide)).2.2.2.2⟩

/-- C5: streaming the packed u64 values 1, 2, 3, 4 through a height-1 hasher
returns exactly the packed 32-byte chunk (the four 8-byte little-endian
encodings back to back) for every hash function, so no hash is ever
computed; and in general a height-1 finish with the fast-path buffer still
active returns that buffer zero-padded to one chunk. -/
theorem claim5_packed_u64_scenario (H : HashF) :
    VecTreeHasher.finish H
      (VecTreeHasher.update H (VecTreeHasher.update H (VecTreeHasher.update H
        (VecTreeHasher.update H (VecTreeHasher.packed 1) (le_bytes 8 1)) (le_bytes 8 2))
        (le_bytes 8 3)) (le_bytes 8 4)) =
      some ([1] ++ List.replicate 7 0 ++ [2] ++ List.replicate 7 0 ++
            [3] ++ List.replicate 7 0 ++ [4] ++ List.replicate 7 0) ∧
    ∀ (st : VecTreeHasher) (fc : Bytes), st.height = 1 → st.first_chunk = some fc →
      VecTreeHasher.finish H st = some (resizeList fc BYTES_PER_CHUNK) := by
  constructor
  · have h1 : VecTreeHasher.update H (VecTreeHasher.packed 1) (le_bytes 8 1) =
        ⟨1, [], le_bytes 8 1, some (le_bytes 8 1), true⟩ := rfl
    rw [h1]
    have h2 : VecTreeHasher.update H ⟨1, [], le_bytes 8 1, some (le_bytes 8 1), true⟩
        (le_bytes 8 2) =
        ⟨1, [], le_bytes 8 1 ++ le_bytes 8 2,
          some (le_bytes 8 1 ++ le_bytes 8 2), true⟩ := rfl
    rw [h2]
    have h3 : VecTreeHasher.update H
        ⟨1, [], le_bytes 8 1 ++ le_bytes 8 2,
          some (le_bytes 8 1 ++ le_bytes 8 2), true⟩ (le_bytes 8 3) =
        ⟨1, [], le_bytes 8 1 ++ le_bytes 8 2 ++ le_bytes 8 3,
          some (le_bytes 8 1 ++ le_bytes 8 2 ++ le_bytes 8 3), true⟩ := rfl
    rw [h3]
    have h4 : VecTreeHasher.update H
        ⟨1, [], le_bytes 8 1 ++ le_bytes 8 2 ++ le_bytes 8 3,
          some (le_bytes 8 1 ++ le_bytes 8 2 ++ le_bytes 8 3), true⟩ (le_bytes 8 4) =
        ⟨1, [], le_bytes 8 1 ++ le_bytes 8 2 ++ le_bytes 8 3 ++ le_bytes 8 4,
          some (le_bytes 8 1 ++ le_bytes 8 2 ++ le_bytes 8 3 ++ le_bytes 8 4),
          true⟩ := rfl
    rw [h4]
    rfl
  · intro st fc h1 h2
    rw [VecTreeHasher.finish, if_pos (by simp [h1, h2]), h2]
    rfl

/-- C5 witness: the scenario evaluated at a concrete hash function, and the
fast-path rule at a concrete one-byte buffer state. -/
theorem claim5_witness :
    VecTreeHasher.finish constHash
      (VecTreeHasher.update constHash (VecTreeHasher.update constHash
        (VecTreeHasher.update constHash (VecTreeHasher.update constHash
          (VecTreeHasher.packed 1) (le_bytes 8 1)) (le_bytes 8 2))
        (le_bytes 8 3)) (le_bytes 8 4)) =
      some ([1] ++ List.replicate 7 0 ++ [2] ++ List.replicate 7 0 ++
            [3] ++ List.replicate 7 0 ++ [4] ++ List.replicate 7 0) ∧
    VecTreeHasher.finish constHash ⟨1, [], [7], some [7], true⟩ =
      some (resizeList [7] BYTES_PER_CHUNK) :=
  ⟨(claim5_packed_u64_scenario constHash).1,
    (claim5_packed_u64_scenario constHash).2 ⟨1, [], [7], some [7], true⟩ [7] rfl rfl⟩

/-- C10 (amended): for heights within the zero-hash cache bound
(`height ≤ 50`, so every visited level is cached) and a non-empty store of
32-byte chunks, `merkleize_chunks` runs `height - 2` halving rounds when
`height > 2` and none otherwise, and passes its final single-chunk assertion
exactly when `n ≤ 1` for `height ≤ 2`, resp. `n ≤ 2^(height-2)` for
`height > 2`. -/
theorem claim10_assertion_condition (H : HashF) (Hlen : ∀ b, (H b).length = 32)
    (cs : List Bytes) (height : Nat) (hne : cs ≠ [])
    (h32 : ∀ c ∈ cs, c.length = 32) (hh : height ≤ 50) :
    (merkleize_chunks H cs height).isSome ↔
      (height ≤ 2 ∧ cs.length ≤ 1) ∨ (2 < height ∧ cs.length ≤ 2 ^ (height - 2)) := by
  obtain ⟨cs', hrounds, hne', h32', hlow, hhigh⟩ :=
    merkleize_rounds_spec H Hlen (height - 2) 1 cs hne h32 (by omega)
  rw [merkleize_chunks_unfold H cs height hne, hrounds]
  simp only [Option.some_bind]
  rw [flatten_all32_length cs' h32']
  have hpos : 0 < cs.length := List.length_pos.mpr hne
  have hpos' : 0 < cs'.length := List.length_pos.mpr hne'
  have hp1 : 0 < 2 ^ (height - 2) := Nat.pos_pow_of_pos _ (by omega)
  by_cases hcase : cs.length ≤ 2 ^ (height - 2)
  · have hL1 : cs'.length = 1 := by
      by_contra hL
      have h2L : 2 ≤ cs'.length := by omega
      have hmul : 2 ^ (height - 2) ≤ (cs'.length - 1) * 2 ^ (height - 2) :=
        Nat.le_mul_of_pos_left _ (by omega)
      omega
    rw [if_pos (by rw [hL1, BYTES_PER_CHUNK])]
    simp only [Option.isSome_some, true_iff]
    rcases Nat.lt_or_ge 2 height with hgt | hle
    · exact Or.inr ⟨hgt, hcase⟩
    · refine Or.inl ⟨by omega, ?_⟩
      have h0 : height - 2 = 0 := by omega
      rw [h0] at hcase
      simpa using hcase
  · have hL2 : 2 ≤ cs'.length := by
      by_contra hL
      have hL1 : cs'.length = 1 := by omega
      rw [hL1, Nat.one_mul] at hhigh
      exact hcase hhigh
    rw [if_neg (by rw [BYTES_PER_CHUNK]; omega)]
    simp only [Option.isSome_none, Bool.false_eq_true, false_iff]
    rintro (⟨hle2, hn1⟩ | ⟨hgt2, hnp⟩)
    · have h0 : height - 2 = 0 := by omega
      rw [h0] at hcase
      simp at hcase
      omega
    · exact hcase hnp

/-- C10 witness: the assertion condition evaluated on both sides of the
boundary for height 4 (at most four chunks succeed, five fail). -/
theorem claim10_witness :
    (merkleize_chunks constHash
        (List.replicate 4 (List.replicate 32 0)) 4).isSome ∧
      ¬ (merkleize_chunks constHash
        (List.replicate 5 (List.replicate 32 0)) 4).isSome := by
  constructor
  · exact (claim10_assertion_condition constHash (fun _ => rfl)
      (List.replicate 4 (List.replicate 32 0)) 4 (by decide) (by decide) (by decide)).mpr
      (Or.inr (by decide))
  · intro hsome
    have h := (claim10_assertion_condition constHash (fun _ => rfl)
      (List.replicate 5 (List.replicate 32 0)) 4 (by decide) (by decide) (by decide)).mp hsome
    rcases h with ⟨h1, _⟩ | ⟨_, h2⟩
    · omega
    · simp at h2

/-- C10 counterexample: at height 51 the loop reaches level 49, beyond the
zero-hash cache, so the computation fails even though two chunks satisfy
`n ≤ 2^(height-2)`; the stated equivalence therefore needs the height bound. -/
theorem claim10_counterexample :
    (1 : Nat) ≤ ([List.replicate 32 0, List.replicate 32 0] : List Bytes).length ∧
      ([List.replicate 32 0, List.replicate 32 0] : List Bytes).length ≤ 2 ^ (51 - 2) ∧
      merkleize_chunks constHash [List.replicate 32 0, List.replicate 32 0] 51 = none := by
  refine ⟨by decide, by norm_num, by decide⟩
